import Mathlib

/-!
Verification of the `accepts` content-negotiation facade (`src/index.js`):
the negotiation result cache, the cache-key derivation, the candidate
normalization, the media-type fast paths and the eviction policy.

The underlying quality-value negotiator (`negotiator` package) and the
extension table (`mime-types` package) are external collaborators; they are
modelled as abstract parameters (`Engine`, `lookup`).

JS `Map` values appear in insertion order, so the shared result cache is
modelled as an association list in insertion order.
-/

namespace Accepts

/-- JS value as it flows through the negotiation API: a string result, a
ranked list (the zero-candidate branch), the boolean `false` sentinel, or
`undefined`. -/
inductive JSVal where
  | vStr : String → JSVal
  | vList : List String → JSVal
  | vFalse : JSVal
  | vUndef : JSVal
deriving DecidableEq, Repr

/-- Header map of the bound request: the four negotiation headers, `none`
when the header was not sent (`req.headers` in `Accepts(req)`,
src/index.js line 50). -/
structure Headers where
  accept : Option String
  acceptEncoding : Option String
  acceptCharset : Option String
  acceptLanguage : Option String
deriving DecidableEq

/-- External Negotiation Engine (`new Negotiator(req)`, src/index.js line
51).  Each field takes the relevant header value (`none` if absent); the
`...All` fields are the zero-argument forms returning the full ranked
list, the other fields take the offered candidate list. -/
structure Engine where
  mediaTypesAll : Option String → List String
  mediaTypes : Option String → List String → List String
  encodingsAll : Option String → List String
  encodings : Option String → List String → List String
  charsetsAll : Option String → List String
  charsets : Option String → List String → List String
  languagesAll : Option String → List String
  languages : Option String → List String → List String

/-- JS truthiness of a string-or-absent header value (`if (header)`,
`if (!this.headers.accept)`): absent and the empty string are falsy. -/
def truthy : Option String → Bool
  | none => false
  | some s => !(s == "")

/-- JS truthiness test on the first element of a list
(`accepts[0] ? ... : false`, `result[0] || false`): an absent first
element and an empty-string first element are both falsy. -/
def firstTruthy : List String → Option String
  | [] => none
  | s :: _ => if s == "" then none else some s

/-- Shared result cache `negotiationCache` (src/index.js line 29), a JS
`Map` modelled as an association list in insertion order. -/
abbrev Cache := List (String × JSVal)

/-- `CACHE_SIZE_LIMIT` (src/index.js line 30). -/
def CACHE_SIZE_LIMIT : Nat := 1000

/-- `negotiationCache.get(k)`: the stored value, `undefined` when the key
is absent. -/
def jsGet (c : Cache) (k : String) : JSVal :=
  match c.find? (fun p => p.1 == k) with
  | some p => p.2
  | none => JSVal.vUndef

/-- `negotiationCache.set(k, v)`: update in place when the key is present,
otherwise append (JS `Map` keeps the original insertion position on
update). -/
def cacheSet (c : Cache) (k : String) (v : JSVal) : Cache :=
  if c.any (fun p => p.1 == k) then
    c.map (fun p => if p.1 == k then (k, v) else p)
  else
    c ++ [(k, v)]

/-- `clearCacheEntries` (src/index.js lines 378-385): delete the first 100
keys in `Map` iteration order (= insertion order), stopping early when the
iterator is exhausted; that is, drop the first `min 100 size` entries.
The inline eviction loop in `types` (lines 151-157) has the same effect:
once the iterator is done, `keys.next().value` is `undefined` and
`Map.delete(undefined)` is a no-op, since every stored key is a string. -/
def clearCacheEntries (c : Cache) : Cache :=
  c.drop 100

/-- `extToMime` / `extToMimeCached` (src/index.js lines 332-359): a token
containing `/` is already canonical and passes through; otherwise the
external `mime.lookup` table is consulted (`none` models its `false`
return).  The memo `mimeCache` only caches this pure lookup, so it is
semantically transparent and not part of the state. -/
def extToMime (lookup : String → Option String) (t : String) : Option String :=
  if t.data.contains '/' then some t else lookup t

/-- `validMime` (src/index.js lines 369-371): `typeof type === 'string'`,
i.e. the lookup did not return `false`. -/
def validMime (m : Option String) : Bool :=
  m.isSome

/-- JS `Array.prototype.join(',')`. -/
def joinComma : List String → String
  | [] => ""
  | [t] => t
  | t :: t' :: ts => t ++ "," ++ joinComma (t' :: ts)

/-- Cache key of the media-type family (src/index.js line 128):
`this.headers.accept + '|' + types.join(',')` — no family tag. -/
def typesKey (accept : String) (ts : List String) : String :=
  accept ++ "|" ++ joinComma ts

/-- Cache key of the encoding family (src/index.js line 196). -/
def encodingsKey (header : String) (es : List String) : String :=
  "enc:" ++ header ++ "|" ++ joinComma es

/-- Cache key of the charset family (src/index.js line 249). -/
def charsetsKey (header : String) (cs : List String) : String :=
  "chr:" ++ header ++ "|" ++ joinComma cs

/-- Cache key of the language family (src/index.js line 304). -/
def languagesKey (header : String) (ls : List String) : String :=
  "lng:" ++ header ++ "|" ++ joinComma ls

/-- The resolution loop of the media-type general path (src/index.js lines
135-144): for each candidate in caller order, resolve it and keep the pair
(canonical mime, original token) when valid; invalid candidates are
dropped.  `mimes` of the source is the first projection of this list. -/
def resolvePairs (lookup : String → Option String) (ts : List String) :
    List (String × String) :=
  ts.filterMap (fun t => (extToMime lookup t).map (fun m => (m, t)))

/-- `mimeMap.get(m)` after the loop of `mimeMap.set(mimeType, type)` calls
(src/index.js line 142): replaying the `set`s in order, a later binding of
the same canonical mime overwrites an earlier one, so `get` returns the
most recent binding. -/
def mimeMapGet (ps : List (String × String)) (m : String) : Option String :=
  ps.foldl (fun acc p => if p.1 == m then some p.2 else acc) none

/-- The uncached computation of the media-type general path (src/index.js
lines 135-148): resolve the candidates, call the engine, take the truthy
first result and map it back through `mimeMap`, else the `false`
sentinel.  `mimeMap.get` can yield `undefined` if the engine were to
return a value it was not offered. -/
def typesFresh (eng : Engine) (lookup : String → Option String)
    (accept : Option String) (ts : List String) : JSVal :=
  let pairs := resolvePairs lookup ts
  let mimes := pairs.map Prod.fst
  let accepts := eng.mediaTypes accept mimes
  match firstTruthy accepts with
  | some first =>
    match mimeMapGet pairs first with
    | some orig => JSVal.vStr orig
    | none => JSVal.vUndef
  | none => JSVal.vFalse

/-- The uncached computation of the encoding family (src/index.js line
203): `this.negotiator.encodings(encodings)[0] || false`. -/
def encodingsFresh (eng : Engine) (header : Option String)
    (es : List String) : JSVal :=
  match firstTruthy (eng.encodings header es) with
  | some e => JSVal.vStr e
  | none => JSVal.vFalse

/-- The uncached computation of the charset family (src/index.js line
256). -/
def charsetsFresh (eng : Engine) (header : Option String)
    (cs : List String) : JSVal :=
  match firstTruthy (eng.charsets header cs) with
  | some e => JSVal.vStr e
  | none => JSVal.vFalse

/-- The uncached computation of the language family (src/index.js line
311). -/
def languagesFresh (eng : Engine) (header : Option String)
    (ls : List String) : JSVal :=
  match firstTruthy (eng.languages header ls) with
  | some e => JSVal.vStr e
  | none => JSVal.vFalse

/-- `Accepts.prototype.types` with an array argument (src/index.js lines
96-161), acting on an explicit cache state: the zero-candidate branch, the
no-header fast path, the single-candidate fast path, then the cached
general path. -/
def typesList (eng : Engine) (lookup : String → Option String)
    (h : Headers) (types : List String) (cache : Cache) : JSVal × Cache :=
  match types with
  | [] => (JSVal.vList (eng.mediaTypesAll h.accept), cache)
  | t0 :: rest =>
    if !(truthy h.accept) then
      (JSVal.vStr t0, cache)
    else if rest.isEmpty then
      match extToMime lookup t0 with
      | none => (JSVal.vFalse, cache)
      | some m =>
        match firstTruthy (eng.mediaTypes h.accept [m]) with
        | some _ => (JSVal.vStr t0, cache)
        | none => (JSVal.vFalse, cache)
    else
      let key := typesKey (h.accept.getD "") (t0 :: rest)
      let cached := jsGet cache key
      if cached ≠ JSVal.vUndef then
        (cached, cache)
      else
        let result := typesFresh eng lookup h.accept (t0 :: rest)
        let cache1 :=
          if CACHE_SIZE_LIMIT ≤ cache.length then clearCacheEntries cache
          else cache
        (result, cacheSet cache1 key result)

/-- `Accepts.prototype.encodings` with an array argument (src/index.js
lines 177-214): the zero-candidate branch, then — only when the
`accept-encoding` header is truthy — the cached path; with a falsy header
the result is computed without touching the cache. -/
def encodingsList (eng : Engine) (h : Headers) (es : List String)
    (cache : Cache) : JSVal × Cache :=
  match es with
  | [] => (JSVal.vList (eng.encodingsAll h.acceptEncoding), cache)
  | _ :: _ =>
    if truthy h.acceptEncoding then
      let key := encodingsKey (h.acceptEncoding.getD "") es
      let cached := jsGet cache key
      if cached ≠ JSVal.vUndef then
        (cached, cache)
      else
        let result := encodingsFresh eng h.acceptEncoding es
        let cache1 :=
          if CACHE_SIZE_LIMIT ≤ cache.length then clearCacheEntries cache
          else cache
        (result, cacheSet cache1 key result)
    else
      (encodingsFresh eng h.acceptEncoding es, cache)

/-- `Accepts.prototype.charsets` with an array argument (src/index.js
lines 230-267), same shape as the encoding family. -/
def charsetsList (eng : Engine) (h : Headers) (cs : List String)
    (cache : Cache) : JSVal × Cache :=
  match cs with
  | [] => (JSVal.vList (eng.charsetsAll h.acceptCharset), cache)
  | _ :: _ =>
    if truthy h.acceptCharset then
      let key := charsetsKey (h.acceptCharset.getD "") cs
      let cached := jsGet cache key
      if cached ≠ JSVal.vUndef then
        (cached, cache)
      else
        let result := charsetsFresh eng h.acceptCharset cs
        let cache1 :=
          if CACHE_SIZE_LIMIT ≤ cache.length then clearCacheEntries cache
          else cache
        (result, cacheSet cache1 key result)
    else
      (charsetsFresh eng h.acceptCharset cs, cache)

/-- `Accepts.prototype.languages` with an array argument (src/index.js
lines 285-322), same shape as the encoding family. -/
def languagesList (eng : Engine) (h : Headers) (ls : List String)
    (cache : Cache) : JSVal × Cache :=
  match ls with
  | [] => (JSVal.vList (eng.languagesAll h.acceptLanguage), cache)
  | _ :: _ =>
    if truthy h.acceptLanguage then
      let key := languagesKey (h.acceptLanguage.getD "") ls
      let cached := jsGet cache key
      if cached ≠ JSVal.vUndef then
        (cached, cache)
      else
        let result := languagesFresh eng h.acceptLanguage ls
        let cache1 :=
          if CACHE_SIZE_LIMIT ≤ cache.length then clearCacheEntries cache
          else cache
        (result, cacheSet cache1 key result)
    else
      (languagesFresh eng h.acceptLanguage ls, cache)

/-- `Accepts.prototype.types` called with variadic string arguments
(src/index.js lines 96-110): `if (types && !Array.isArray(types))`
collects `arguments` into an array only when the first argument is
truthy; a falsy first argument (no argument, or the empty string) leaves
`types` falsy and the call falls into the `!types` zero-candidate
branch. -/
def typesVariadic (eng : Engine) (lookup : String → Option String)
    (h : Headers) (args : List String) (cache : Cache) : JSVal × Cache :=
  match args with
  | [] => typesList eng lookup h [] cache
  | a :: _ =>
    if a == "" then (JSVal.vList (eng.mediaTypesAll h.accept), cache)
    else typesList eng lookup h args cache

/-- `Accepts.prototype.encodings` called with variadic string arguments
(src/index.js lines 177-191), same argument-shape sniffing as `types`. -/
def encodingsVariadic (eng : Engine) (h : Headers) (args : List String)
    (cache : Cache) : JSVal × Cache :=
  match args with
  | [] => encodingsList eng h [] cache
  | a :: _ =>
    if a == "" then (JSVal.vList (eng.encodingsAll h.acceptEncoding), cache)
    else encodingsList eng h args cache

/-- `Accepts.prototype.charsets` called with variadic string arguments
(src/index.js lines 230-244). -/
def charsetsVariadic (eng : Engine) (h : Headers) (args : List String)
    (cache : Cache) : JSVal × Cache :=
  match args with
  | [] => charsetsList eng h [] cache
  | a :: _ =>
    if a == "" then (JSVal.vList (eng.charsetsAll h.acceptCharset), cache)
    else charsetsList eng h args cache

/-- `Accepts.prototype.languages` called with variadic string arguments
(src/index.js lines 285-299). -/
def languagesVariadic (eng : Engine) (h : Headers) (args : List String)
    (cache : Cache) : JSVal × Cache :=
  match args with
  | [] => languagesList eng h [] cache
  | a :: _ =>
    if a == "" then (JSVal.vList (eng.languagesAll h.acceptLanguage), cache)
    else languagesList eng h args cache

/-- One facade call: the operation, the headers of the request it is bound
to, and its candidate list. -/
inductive Call where
  | ctypes (h : Headers) (ts : List String)
  | cencodings (h : Headers) (es : List String)
  | ccharsets (h : Headers) (cs : List String)
  | clanguages (h : Headers) (ls : List String)

/-- Effect of one facade call on the shared result cache. -/
def runCall (eng : Engine) (lookup : String → Option String)
    (c : Cache) : Call → Cache
  | Call.ctypes h ts => (typesList eng lookup h ts c).2
  | Call.cencodings h es => (encodingsList eng h es c).2
  | Call.ccharsets h cs => (charsetsList eng h cs c).2
  | Call.clanguages h ls => (languagesList eng h ls c).2

/-- A candidate token that cannot forge the key delimiters: it contains
neither the join separator `,` nor the header separator `|`. -/
def GoodTok (t : String) : Prop :=
  (',' ∈ t.data → False) ∧ ('|' ∈ t.data → False)

/-- All candidate tokens of a call are delimiter-free. -/
def GoodToks (ts : List String) : Prop :=
  ∀ t ∈ ts, GoodTok t

/-- An `Accept` header value that cannot forge another family's key: it is
truthy and does not begin with one of the family tags `enc:`, `chr:`,
`lng:` (the media-type family's keys carry no tag of their own). -/
def GoodAccept (s : String) : Prop :=
  s ≠ "" ∧ s.data.take 4 ≠ "enc:".data ∧ s.data.take 4 ≠ "chr:".data ∧
    s.data.take 4 ≠ "lng:".data

instance (t : String) : Decidable (GoodTok t) := by
  unfold GoodTok
  infer_instance

instance (ts : List String) : Decidable (GoodToks ts) := by
  unfold GoodToks
  infer_instance

instance (s : String) : Decidable (GoodAccept s) := by
  unfold GoodAccept
  infer_instance

/-- Coherence of the cache for the media-type family: every stored entry
whose key decodes as a delimiter-free media-type general-path call holds
that call's fresh result. -/
def CoherentTypes (eng : Engine) (lookup : String → Option String)
    (c : Cache) : Prop :=
  ∀ p ∈ c, ∀ s ts, GoodAccept s → GoodToks ts → 2 ≤ List.length ts →
    p.1 = typesKey s ts → p.2 = typesFresh eng lookup (some s) ts

/-- Coherence of the cache for the encoding family. -/
def CoherentEncodings (eng : Engine) (c : Cache) : Prop :=
  ∀ p ∈ c, ∀ s es, s ≠ "" → GoodToks es → es ≠ [] →
    p.1 = encodingsKey s es → p.2 = encodingsFresh eng (some s) es

/-- Coherence of the cache for the charset family. -/
def CoherentCharsets (eng : Engine) (c : Cache) : Prop :=
  ∀ p ∈ c, ∀ s cs, s ≠ "" → GoodToks cs → cs ≠ [] →
    p.1 = charsetsKey s cs → p.2 = charsetsFresh eng (some s) cs

/-- Coherence of the cache for the language family. -/
def CoherentLanguages (eng : Engine) (c : Cache) : Prop :=
  ∀ p ∈ c, ∀ s ls, s ≠ "" → GoodToks ls → ls ≠ [] →
    p.1 = languagesKey s ls → p.2 = languagesFresh eng (some s) ls

/-- Coherence of the shared cache: every stored entry agrees with the
fresh computation of any delimiter-free call its key decodes to. -/
def Coherent (eng : Engine) (lookup : String → Option String)
    (c : Cache) : Prop :=
  CoherentTypes eng lookup c ∧ CoherentEncodings eng c ∧
    CoherentCharsets eng c ∧ CoherentLanguages eng c

/-- A call whose tokens are delimiter-free and, for the media-type family,
whose truthy `Accept` value does not begin with a family tag. -/
def GoodCall : Call → Prop
  | Call.ctypes h ts =>
    GoodToks ts ∧ (truthy h.accept = true → GoodAccept (h.accept.getD ""))
  | Call.cencodings _ es => GoodToks es
  | Call.ccharsets _ cs => GoodToks cs
  | Call.clanguages _ ls => GoodToks ls

/-- A value the cache is allowed to hold: a candidate token string or the
`false` sentinel. -/
def GoodVal (v : JSVal) : Prop :=
  (∃ s, v = JSVal.vStr s) ∨ v = JSVal.vFalse

/-- Contract of the external negotiator: with candidates supplied, it
returns a subset of the offered candidates. -/
def MediaSubset (eng : Engine) : Prop :=
  ∀ h cs, ∀ x ∈ eng.mediaTypes h cs, x ∈ cs

/-- The last candidate in caller order whose resolution is the canonical
identifier `m` (the token `mimeMap.get(m)` actually retains). -/
def lastResolved (lookup : String → Option String) (ts : List String)
    (m : String) : Option String :=
  (ts.filter (fun t => extToMime lookup t == some m)).getLast?

/-- Engine that accepts every offered candidate in offer order, with empty
zero-candidate rankings; used to instantiate theorems on concrete runs. -/
def engId : Engine :=
  { mediaTypesAll := fun _ => []
    mediaTypes := fun _ cands => cands
    encodingsAll := fun _ => []
    encodings := fun _ cands => cands
    charsetsAll := fun _ => []
    charsets := fun _ cands => cands
    languagesAll := fun _ => []
    languages := fun _ cands => cands }

/-- Engine for a client that accepts exactly the media type `text/c`. -/
def engSel : Engine :=
  { engId with mediaTypes := fun _ cands => cands.filter (fun x => x == "text/c") }

/-- Engine whose zero-candidate media-type ranking is nonempty, to make
the zero-candidate branch observable. -/
def engFull : Engine :=
  { engId with mediaTypesAll := fun _ => ["EVERYTHING"] }

/-- Extension table with no entries. -/
def lookupNone : String → Option String := fun _ => none

/-- Extension table mapping `html` to `text/html`. -/
def lookupHtml : String → Option String :=
  fun t => if t == "html" then some "text/html" else none

/-- Extension table mapping `json` to `application/json`. -/
def lookupJson : String → Option String :=
  fun t => if t == "json" then some "application/json" else none

/-- Request headers with `Accept: text/c` only. -/
def hdrTextC : Headers := ⟨some "text/c", none, none, none⟩

/-- Request headers with `Accept: text/html` only. -/
def hdrHtml : Headers := ⟨some "text/html", none, none, none⟩

/-- Request headers with no negotiation header at all. -/
def hdrNone : Headers := ⟨none, none, none, none⟩

/-- Request headers whose `Accept` header is present but empty. -/
def hdrEmpty : Headers := ⟨some "", none, none, none⟩

/-- Request headers with `Accept-Encoding: gzip` only. -/
def hdrGzip : Headers := ⟨none, some "gzip", none, none⟩

theorem string_data_inj {s t : String} (h : s.data = t.data) : s = t := by
  cases s
  cases t
  exact congrArg String.mk (by simpa using h)

theorem key_data (s j : String) : (s ++ "|" ++ j).data = s.data ++ '|' :: j.data := by
  rw [String.data_append, String.data_append, List.append_assoc]
  rfl

theorem append_sep_inj (c : Char) (a₁ : List Char) :
    ∀ (a₂ : List Char) {b₁ b₂ : List Char}, c ∉ a₁ → c ∉ a₂ →
      a₁ ++ c :: b₁ = a₂ ++ c :: b₂ → a₁ = a₂ ∧ b₁ = b₂ := by
  induction a₁ with
  | nil =>
    intro a₂ b₁ b₂ _ h₂ h
    cases a₂ with
    | nil => simpa using h
    | cons x a₂ =>
      simp only [List.nil_append, List.cons_append, List.cons.injEq] at h
      exact absurd (h.1 ▸ List.mem_cons_self x a₂) h₂
  | cons y a₁ ih =>
    intro a₂ b₁ b₂ h₁ h₂ h
    cases a₂ with
    | nil =>
      simp only [List.cons_append, List.nil_append, List.cons.injEq] at h
      exact absurd (h.1 ▸ List.mem_cons_self y a₁) h₁
    | cons x a₂ =>
      simp only [List.cons_append, List.cons.injEq] at h
      have hrec := ih a₂ (fun hm => h₁ (List.mem_cons_of_mem y hm))
        (fun hm => h₂ (List.mem_cons_of_mem x hm)) h.2
      exact ⟨by rw [h.1, hrec.1], hrec.2⟩

theorem sep_last_inj (c : Char) {a₁ a₂ b₁ b₂ : List Char}
    (h₁ : c ∉ b₁) (h₂ : c ∉ b₂)
    (h : a₁ ++ c :: b₁ = a₂ ++ c :: b₂) : a₁ = a₂ ∧ b₁ = b₂ := by
  have hrev : b₁.reverse ++ c :: a₁.reverse = b₂.reverse ++ c :: a₂.reverse := by
    have hr := congrArg List.reverse h
    simpa [List.reverse_append] using hr
  have hs := append_sep_inj c b₁.reverse b₂.reverse (by simpa using h₁)
    (by simpa using h₂) hrev
  exact ⟨List.reverse_inj.mp hs.2, List.reverse_inj.mp hs.1⟩

theorem joinComma_data_cons (t t' : String) (ts : List String) :
    (joinComma (t :: t' :: ts)).data = t.data ++ ',' :: (joinComma (t' :: ts)).data := by
  show (t ++ "," ++ joinComma (t' :: ts)).data = _
  rw [String.data_append, String.data_append, List.append_assoc]
  rfl

theorem pipe_not_mem_joinComma : ∀ {ts : List String},
    (∀ t ∈ ts, '|' ∉ t.data) → '|' ∉ (joinComma ts).data := by
  intro ts
  induction ts with
  | nil => intro _ hm; simp [joinComma] at hm
  | cons t rest ih =>
    intro h hm
    cases rest with
    | nil => exact h t (List.mem_cons_self t []) (by simpa [joinComma] using hm)
    | cons t' rest' =>
      rw [joinComma_data_cons] at hm
      rcases List.mem_append.mp hm with hl | hr
      · exact h t (List.mem_cons_self ..) hl
      · rcases List.mem_cons.mp hr with hc | hr'
        · exact absurd hc (by decide)
        · exact ih (fun u hu => h u (List.mem_cons_of_mem t hu)) hr'

theorem joinComma_inj : ∀ (ts₁ : List String), ∀ (ts₂ : List String),
    (∀ t ∈ ts₁, ',' ∉ t.data) → (∀ t ∈ ts₂, ',' ∉ t.data) →
    ts₁ ≠ [] → ts₂ ≠ [] → joinComma ts₁ = joinComma ts₂ → ts₁ = ts₂ := by
  intro ts₁
  induction ts₁ with
  | nil => intro ts₂ _ _ hn _ _; exact absurd rfl hn
  | cons t₁ rest₁ ih =>
    intro ts₂ h₁ h₂ _ hn₂ hj
    cases ts₂ with
    | nil => exact absurd rfl hn₂
    | cons t₂ rest₂ =>
      cases rest₁ with
      | nil =>
        cases rest₂ with
        | nil => simpa [joinComma] using hj
        | cons t₂' rest₂' =>
          exfalso
          have hd := congrArg String.data hj
          rw [joinComma_data_cons] at hd
          have hc : ',' ∈ (joinComma [t₁]).data := by
            rw [hd]
            exact List.mem_append_right _ (List.mem_cons_self ..)
          exact h₁ t₁ (List.mem_cons_self ..) (by simpa [joinComma] using hc)
      | cons t₁' rest₁' =>
        cases rest₂ with
        | nil =>
          exfalso
          have hd := congrArg String.data hj
          rw [joinComma_data_cons] at hd
          have hc : ',' ∈ (joinComma [t₂]).data := by
            rw [← hd]
            exact List.mem_append_right _ (List.mem_cons_self ..)
          exact h₂ t₂ (List.mem_cons_self ..) (by simpa [joinComma] using hc)
        | cons t₂' rest₂' =>
          have hd := congrArg String.data hj
          rw [joinComma_data_cons, joinComma_data_cons] at hd
          have hsplit := append_sep_inj ',' t₁.data t₂.data
            (h₁ t₁ (List.mem_cons_self ..)) (h₂ t₂ (List.mem_cons_self ..)) hd
          have ht : t₁ = t₂ := string_data_inj hsplit.1
          have hrest := ih (t₂' :: rest₂')
            (fun u hu => h₁ u (List.mem_cons_of_mem t₁ hu))
            (fun u hu => h₂ u (List.mem_cons_of_mem t₂ hu))
            (by simp) (by simp) (string_data_inj hsplit.2)
          rw [ht, hrest]

theorem typesKey_data (s : String) (ts : List String) :
    (typesKey s ts).data = s.data ++ '|' :: (joinComma ts).data :=
  key_data s (joinComma ts)

theorem encodingsKey_data (s : String) (es : List String) :
    (encodingsKey s es).data =
      'e' :: 'n' :: 'c' :: ':' :: (s.data ++ '|' :: (joinComma es).data) := by
  show ("enc:" ++ s ++ "|" ++ joinComma es).data = _
  rw [String.data_append, String.data_append, String.data_append,
    List.append_assoc, List.append_assoc]
  rfl

theorem charsetsKey_data (s : String) (cs : List String) :
    (charsetsKey s cs).data =
      'c' :: 'h' :: 'r' :: ':' :: (s.data ++ '|' :: (joinComma cs).data) := by
  show ("chr:" ++ s ++ "|" ++ joinComma cs).data = _
  rw [String.data_append, String.data_append, String.data_append,
    List.append_assoc, List.append_assoc]
  rfl

theorem languagesKey_data (s : String) (ls : List String) :
    (languagesKey s ls).data =
      'l' :: 'n' :: 'g' :: ':' :: (s.data ++ '|' :: (joinComma ls).data) := by
  show ("lng:" ++ s ++ "|" ++ joinComma ls).data = _
  rw [String.data_append, String.data_append, String.data_append,
    List.append_assoc, List.append_assoc]
  rfl

theorem stripped_inj {s₁ s₂ : String} {es₁ es₂ : List String}
    (h₁ : GoodToks es₁) (h₂ : GoodToks es₂) (n₁ : es₁ ≠ []) (n₂ : es₂ ≠ [])
    (hd : s₁.data ++ '|' :: (joinComma es₁).data =
      s₂.data ++ '|' :: (joinComma es₂).data) : s₁ = s₂ ∧ es₁ = es₂ := by
  have hp₁ := pipe_not_mem_joinComma (fun t ht => (h₁ t ht).2)
  have hp₂ := pipe_not_mem_joinComma (fun t ht => (h₂ t ht).2)
  have hsplit := sep_last_inj '|' hp₁ hp₂ hd
  exact ⟨string_data_inj hsplit.1,
    joinComma_inj es₁ es₂ (fun t ht => (h₁ t ht).1) (fun t ht => (h₂ t ht).1)
      n₁ n₂ (string_data_inj hsplit.2)⟩

theorem typesKey_inj {s₁ s₂ : String} {ts₁ ts₂ : List String}
    (h₁ : GoodToks ts₁) (h₂ : GoodToks ts₂) (n₁ : ts₁ ≠ []) (n₂ : ts₂ ≠ [])
    (h : typesKey s₁ ts₁ = typesKey s₂ ts₂) : s₁ = s₂ ∧ ts₁ = ts₂ := by
  have hd := congrArg String.data h
  rw [typesKey_data, typesKey_data] at hd
  exact stripped_inj h₁ h₂ n₁ n₂ hd

theorem encodingsKey_inj {s₁ s₂ : String} {es₁ es₂ : List String}
    (h₁ : GoodToks es₁) (h₂ : GoodToks es₂) (n₁ : es₁ ≠ []) (n₂ : es₂ ≠ [])
    (h : encodingsKey s₁ es₁ = encodingsKey s₂ es₂) : s₁ = s₂ ∧ es₁ = es₂ := by
  have hd := congrArg String.data h
  rw [encodingsKey_data, encodingsKey_data] at hd
  injection hd with _ hd
  injection hd with _ hd
  injection hd with _ hd
  injection hd with _ hd
  exact stripped_inj h₁ h₂ n₁ n₂ hd

theorem charsetsKey_inj {s₁ s₂ : String} {cs₁ cs₂ : List String}
    (h₁ : GoodToks cs₁) (h₂ : GoodToks cs₂) (n₁ : cs₁ ≠ []) (n₂ : cs₂ ≠ [])
    (h : charsetsKey s₁ cs₁ = charsetsKey s₂ cs₂) : s₁ = s₂ ∧ cs₁ = cs₂ := by
  have hd := congrArg String.data h
  rw [charsetsKey_data, charsetsKey_data] at hd
  injection hd with _ hd
  injection hd with _ hd
  injection hd with _ hd
  injection hd with _ hd
  exact stripped_inj h₁ h₂ n₁ n₂ hd

theorem languagesKey_inj {s₁ s₂ : String} {ls₁ ls₂ : List String}
    (h₁ : GoodToks ls₁) (h₂ : GoodToks ls₂) (n₁ : ls₁ ≠ []) (n₂ : ls₂ ≠ [])
    (h : languagesKey s₁ ls₁ = languagesKey s₂ ls₂) : s₁ = s₂ ∧ ls₁ = ls₂ := by
  have hd := congrArg String.data h
  rw [languagesKey_data, languagesKey_data] at hd
  injection hd with _ hd
  injection hd with _ hd
  injection hd with _ hd
  injection hd with _ hd
  exact stripped_inj h₁ h₂ n₁ n₂ hd

theorem pipe_split_ne_cons4 (s J rest : List Char) (c1 c2 c3 c4 : Char)
    (h4 : s.take 4 ≠ [c1, c2, c3, c4]) (hp1 : c1 ≠ '|') (hp2 : c2 ≠ '|')
    (hp3 : c3 ≠ '|') (hp4 : c4 ≠ '|') :
    s ++ '|' :: J ≠ c1 :: c2 :: c3 :: c4 :: rest := by
  intro h
  rcases s with _ | ⟨a, _ | ⟨b, _ | ⟨c, _ | ⟨d, s'⟩⟩⟩⟩
  · injection h with h1 _
    exact hp1 h1.symm
  · injection h with _ h
    injection h with h2 _
    exact hp2 h2.symm
  · injection h with _ h
    injection h with _ h
    injection h with h3 _
    exact hp3 h3.symm
  · injection h with _ h
    injection h with _ h
    injection h with _ h
    injection h with h4' _
    exact hp4 h4'.symm
  · injection h with e1 h
    injection h with e2 h
    injection h with e3 h
    injection h with e4 _
    exact h4 (by simp [List.take, e1, e2, e3, e4])

theorem typesKey_ne_encodingsKey {s₁ : String} {ts : List String}
    {s₂ : String} {es : List String} (hs : GoodAccept s₁) :
    typesKey s₁ ts ≠ encodingsKey s₂ es := by
  intro h
  have hd := congrArg String.data h
  rw [typesKey_data, encodingsKey_data] at hd
  exact pipe_split_ne_cons4 s₁.data _ _ 'e' 'n' 'c' ':'
    (by simpa using hs.2.1) (by decide) (by decide) (by decide) (by decide) hd

theorem typesKey_ne_charsetsKey {s₁ : String} {ts : List String}
    {s₂ : String} {cs : List String} (hs : GoodAccept s₁) :
    typesKey s₁ ts ≠ charsetsKey s₂ cs := by
  intro h
  have hd := congrArg String.data h
  rw [typesKey_data, charsetsKey_data] at hd
  exact pipe_split_ne_cons4 s₁.data _ _ 'c' 'h' 'r' ':'
    (by simpa using hs.2.2.1) (by decide) (by decide) (by decide) (by decide) hd

theorem typesKey_ne_languagesKey {s₁ : String} {ts : List String}
    {s₂ : String} {ls : List String} (hs : GoodAccept s₁) :
    typesKey s₁ ts ≠ languagesKey s₂ ls := by
  intro h
  have hd := congrArg String.data h
  rw [typesKey_data, languagesKey_data] at hd
  exact pipe_split_ne_cons4 s₁.data _ _ 'l' 'n' 'g' ':'
    (by simpa using hs.2.2.2) (by decide) (by decide) (by decide) (by decide) hd

theorem encodingsKey_ne_charsetsKey {s₁ : String} {es : List String}
    {s₂ : String} {cs : List String} :
    encodingsKey s₁ es ≠ charsetsKey s₂ cs := by
  intro h
  have hd := congrArg String.data h
  rw [encodingsKey_data, charsetsKey_data] at hd
  injection hd with h1 _
  exact absurd h1 (by decide)

theorem encodingsKey_ne_languagesKey {s₁ : String} {es : List String}
    {s₂ : String} {ls : List String} :
    encodingsKey s₁ es ≠ languagesKey s₂ ls := by
  intro h
  have hd := congrArg String.data h
  rw [encodingsKey_data, languagesKey_data] at hd
  injection hd with h1 _
  exact absurd h1 (by decide)

theorem charsetsKey_ne_languagesKey {s₁ : String} {cs : List String}
    {s₂ : String} {ls : List String} :
    charsetsKey s₁ cs ≠ languagesKey s₂ ls := by
  intro h
  have hd := congrArg String.data h
  rw [charsetsKey_data, languagesKey_data] at hd
  injection hd with h1 _
  exact absurd h1 (by decide)

theorem mem_cacheSet {c : Cache} {k : String} {v : JSVal} {p : String × JSVal}
    (h : p ∈ cacheSet c k v) : p = (k, v) ∨ (p ∈ c ∧ p.1 ≠ k) := by
  unfold cacheSet at h
  split at h
  · rcases List.mem_map.mp h with ⟨q, hq, hfq⟩
    by_cases hqk : (q.1 == k) = true
    · left
      rw [← hfq, if_pos hqk]
    · right
      rw [← hfq, if_neg hqk]
      exact ⟨hq, by simpa using hqk⟩
  · next hany =>
    rcases List.mem_append.mp h with hc | hnew
    · right
      refine ⟨hc, fun hk => ?_⟩
      exact hany (List.any_eq_true.mpr ⟨p, hc, by simp [hk]⟩)
    · left
      simpa using hnew

theorem find?_set_mem {k : String} {v : JSVal} : ∀ (c : Cache),
    c.any (fun p => p.1 == k) = true →
    (c.map (fun p => if p.1 == k then (k, v) else p)).find?
      (fun p => p.1 == k) = some (k, v) := by
  intro c
  induction c with
  | nil => intro h; simp at h
  | cons q rest ih =>
    intro h
    by_cases hqk : (q.1 == k) = true
    · rw [List.map_cons, if_pos hqk, List.find?_cons_of_pos _ (by simp)]
    · have hrest : rest.any (fun p => p.1 == k) = true := by
        simpa [List.any_cons, hqk] using h
      rw [List.map_cons, if_neg hqk, List.find?_cons_of_neg _ (by simpa using hqk)]
      exact ih hrest

theorem find?_append_absent {k : String} {v : JSVal} : ∀ (c : Cache),
    c.any (fun p => p.1 == k) = false →
    (c ++ [(k, v)]).find? (fun p => p.1 == k) = some (k, v) := by
  intro c
  induction c with
  | nil => intro _; simp [List.find?]
  | cons q rest ih =>
    intro h
    simp only [List.any_cons, Bool.or_eq_false_iff] at h
    rw [List.cons_append, List.find?_cons_of_neg _ (by simp [h.1])]
    exact ih h.2

theorem jsGet_cacheSet (c : Cache) (k : String) (v : JSVal) :
    jsGet (cacheSet c k v) k = v := by
  unfold cacheSet
  by_cases hany : (c.any fun p => p.1 == k) = true
  · rw [if_pos hany]
    unfold jsGet
    rw [find?_set_mem c hany]
  · rw [if_neg hany]
    unfold jsGet
    rw [find?_append_absent c (Bool.eq_false_iff.mpr hany)]

theorem length_cacheSet (c : Cache) (k : String) (v : JSVal) :
    (cacheSet c k v).length ≤ c.length + 1 := by
  unfold cacheSet
  split
  · simp
  · simp

theorem length_clearCacheEntries (c : Cache) :
    (clearCacheEntries c).length = c.length - 100 := by
  simp [clearCacheEntries]

theorem mem_clearCacheEntries {c : Cache} {p : String × JSVal}
    (h : p ∈ clearCacheEntries c) : p ∈ c :=
  List.drop_subset 100 c h

theorem jsGet_hit_mem {c : Cache} {k : String} (h : jsGet c k ≠ JSVal.vUndef) :
    (k, jsGet c k) ∈ c := by
  unfold jsGet at h ⊢
  cases hf : c.find? (fun p => p.1 == k) with
  | none => rw [hf] at h; exact absurd rfl h
  | some p =>
    show (k, p.2) ∈ c
    have hm := List.mem_of_find?_eq_some hf
    have hk : p.1 = k := by simpa using List.find?_some hf
    rw [← hk]
    simpa using hm

theorem jsGet_vUndef_absent {c : Cache} {k : String}
    (hnu : ∀ p ∈ c, p.2 ≠ JSVal.vUndef) (h : jsGet c k = JSVal.vUndef) :
    ∀ p ∈ c, p.1 ≠ k := by
  unfold jsGet at h
  cases hf : c.find? (fun p => p.1 == k) with
  | some p =>
    rw [hf] at h
    exact absurd h (hnu p (List.mem_of_find?_eq_some hf))
  | none =>
    intro p hp
    have := List.find?_eq_none.mp hf p hp
    simpa using this

theorem firstTruthy_mem {l : List String} {s : String}
    (h : firstTruthy l = some s) : s ∈ l := by
  cases l with
  | nil => simp [firstTruthy] at h
  | cons x xs =>
    by_cases hx : (x == "") = true
    · simp [firstTruthy, hx] at h
    · simp only [firstTruthy, if_neg hx] at h
      injection h with hx'
      exact hx' ▸ List.mem_cons_self x xs

theorem mimeMapGet_aux {m : String} : ∀ (ps : List (String × String))
    (acc : Option String), m ∈ ps.map Prod.fst ∨ acc.isSome →
    (ps.foldl (fun a p => if p.1 == m then some p.2 else a) acc).isSome := by
  intro ps
  induction ps with
  | nil =>
    intro acc h
    rcases h with h | h
    · simp at h
    · simpa using h
  | cons q rest ih =>
    intro acc h
    rw [List.foldl_cons]
    by_cases hq : (q.1 == m) = true
    · exact ih _ (Or.inr (by simp [hq]))
    · refine ih _ ?_
      rcases h with h | h
      · rw [List.map_cons] at h
        rcases List.mem_cons.mp h with h' | h'
        · exact absurd (by simp [h']) hq
        · exact Or.inl h'
      · refine Or.inr ?_
        rw [if_neg hq]
        exact h

theorem mimeMapGet_isSome {ps : List (String × String)} {m : String}
    (h : m ∈ ps.map Prod.fst) : (mimeMapGet ps m).isSome :=
  mimeMapGet_aux ps none (Or.inl h)

theorem typesList_no_accept (eng : Engine) (lookup : String → Option String)
    (h : Headers) (t0 : String) (rest : List String) (c : Cache)
    (hacc : truthy h.accept = false) :
    typesList eng lookup h (t0 :: rest) c = (JSVal.vStr t0, c) := by
  simp [typesList, hacc]

theorem typesList_single (eng : Engine) (lookup : String → Option String)
    (h : Headers) (s t : String) (c : Cache)
    (hacc : h.accept = some s) (hs : s ≠ "") :
    typesList eng lookup h [t] c =
      (match extToMime lookup t with
       | none => (JSVal.vFalse, c)
       | some m =>
         match firstTruthy (eng.mediaTypes (some s) [m]) with
         | some _ => (JSVal.vStr t, c)
         | none => (JSVal.vFalse, c) : JSVal × Cache) := by
  simp [typesList, truthy, hacc, hs]

theorem typesList_hit (eng : Engine) (lookup : String → Option String)
    (h : Headers) (s t0 t1 : String) (rest : List String) (c : Cache)
    (hacc : h.accept = some s) (hs : s ≠ "")
    (hhit : jsGet c (typesKey s (t0 :: t1 :: rest)) ≠ JSVal.vUndef) :
    typesList eng lookup h (t0 :: t1 :: rest) c =
      (jsGet c (typesKey s (t0 :: t1 :: rest)), c) := by
  simp [typesList, truthy, hacc, hs, hhit]

theorem typesList_miss (eng : Engine) (lookup : String → Option String)
    (h : Headers) (s t0 t1 : String) (rest : List String) (c : Cache)
    (hacc : h.accept = some s) (hs : s ≠ "")
    (hmiss : jsGet c (typesKey s (t0 :: t1 :: rest)) = JSVal.vUndef) :
    typesList eng lookup h (t0 :: t1 :: rest) c =
      (typesFresh eng lookup (some s) (t0 :: t1 :: rest),
       cacheSet (if CACHE_SIZE_LIMIT ≤ c.length then clearCacheEntries c else c)
         (typesKey s (t0 :: t1 :: rest))
         (typesFresh eng lookup (some s) (t0 :: t1 :: rest))) := by
  simp [typesList, truthy, hacc, hs, hmiss]

theorem encodingsList_nocache (eng : Engine) (h : Headers)
    (e : String) (es : List String) (c : Cache)
    (hh : truthy h.acceptEncoding = false) :
    encodingsList eng h (e :: es) c =
      (encodingsFresh eng h.acceptEncoding (e :: es), c) := by
  simp [encodingsList, hh]

theorem encodingsList_hit (eng : Engine) (h : Headers)
    (s e : String) (es : List String) (c : Cache)
    (hacc : h.acceptEncoding = some s) (hs : s ≠ "")
    (hhit : jsGet c (encodingsKey s (e :: es)) ≠ JSVal.vUndef) :
    encodingsList eng h (e :: es) c = (jsGet c (encodingsKey s (e :: es)), c) := by
  simp [encodingsList, truthy, hacc, hs, hhit]

theorem encodingsList_miss (eng : Engine) (h : Headers)
    (s e : String) (es : List String) (c : Cache)
    (hacc : h.acceptEncoding = some s) (hs : s ≠ "")
    (hmiss : jsGet c (encodingsKey s (e :: es)) = JSVal.vUndef) :
    encodingsList eng h (e :: es) c =
      (encodingsFresh eng (some s) (e :: es),
       cacheSet (if CACHE_SIZE_LIMIT ≤ c.length then clearCacheEntries c else c)
         (encodingsKey s (e :: es)) (encodingsFresh eng (some s) (e :: es))) := by
  simp [encodingsList, truthy, hacc, hs, hmiss]

theorem charsetsList_nocache (eng : Engine) (h : Headers)
    (e : String) (cs : List String) (c : Cache)
    (hh : truthy h.acceptCharset = false) :
    charsetsList eng h (e :: cs) c =
      (charsetsFresh eng h.acceptCharset (e :: cs), c) := by
  simp [charsetsList, hh]

theorem charsetsList_hit (eng : Engine) (h : Headers)
    (s e : String) (cs : List String) (c : Cache)
    (hacc : h.acceptCharset = some s) (hs : s ≠ "")
    (hhit : jsGet c (charsetsKey s (e :: cs)) ≠ JSVal.vUndef) :
    charsetsList eng h (e :: cs) c = (jsGet c (charsetsKey s (e :: cs)), c) := by
  simp [charsetsList, truthy, hacc, hs, hhit]

theorem charsetsList_miss (eng : Engine) (h : Headers)
    (s e : String) (cs : List String) (c : Cache)
    (hacc : h.acceptCharset = some s) (hs : s ≠ "")
    (hmiss : jsGet c (charsetsKey s (e :: cs)) = JSVal.vUndef) :
    charsetsList eng h (e :: cs) c =
      (charsetsFresh eng (some s) (e :: cs),
       cacheSet (if CACHE_SIZE_LIMIT ≤ c.length then clearCacheEntries c else c)
         (charsetsKey s (e :: cs)) (charsetsFresh eng (some s) (e :: cs))) := by
  simp [charsetsList, truthy, hacc, hs, hmiss]

theorem languagesList_nocache (eng : Engine) (h : Headers)
    (e : String) (ls : List String) (c : Cache)
    (hh : truthy h.acceptLanguage = false) :
    languagesList eng h (e :: ls) c =
      (languagesFresh eng h.acceptLanguage (e :: ls), c) := by
  simp [languagesList, hh]

theorem languagesList_hit (eng : Engine) (h : Headers)
    (s e : String) (ls : List String) (c : Cache)
    (hacc : h.acceptLanguage = some s) (hs : s ≠ "")
    (hhit : jsGet c (languagesKey s (e :: ls)) ≠ JSVal.vUndef) :
    languagesList eng h (e :: ls) c = (jsGet c (languagesKey s (e :: ls)), c) := by
  simp [languagesList, truthy, hacc, hs, hhit]

theorem languagesList_miss (eng : Engine) (h : Headers)
    (s e : String) (ls : List String) (c : Cache)
    (hacc : h.acceptLanguage = some s) (hs : s ≠ "")
    (hmiss : jsGet c (languagesKey s (e :: ls)) = JSVal.vUndef) :
    languagesList eng h (e :: ls) c =
      (languagesFresh eng (some s) (e :: ls),
       cacheSet (if CACHE_SIZE_LIMIT ≤ c.length then clearCacheEntries c else c)
         (languagesKey s (e :: ls)) (languagesFresh eng (some s) (e :: ls))) := by
  simp [languagesList, truthy, hacc, hs, hmiss]

theorem mem_evict_if {c : Cache} {p : String × JSVal}
    (hp : p ∈ (if CACHE_SIZE_LIMIT ≤ c.length then clearCacheEntries c else c)) :
    p ∈ c := by
  split at hp
  · exact mem_clearCacheEntries hp
  · exact hp

theorem typesList_snd_cases (eng : Engine) (lookup : String → Option String)
    (h : Headers) (ts : List String) (c : Cache) :
    (typesList eng lookup h ts c).2 = c ∨
    ∃ s, h.accept = some s ∧ s ≠ "" ∧ 2 ≤ ts.length ∧
      jsGet c (typesKey s ts) = JSVal.vUndef ∧
      (typesList eng lookup h ts c).2 =
        cacheSet (if CACHE_SIZE_LIMIT ≤ c.length then clearCacheEntries c else c)
          (typesKey s ts) (typesFresh eng lookup (some s) ts) := by
  rcases ts with _ | ⟨t0, _ | ⟨t1, rest⟩⟩
  · left; rfl
  · left
    cases hacc : h.accept with
    | none => rw [typesList_no_accept eng lookup h t0 [] c (by simp [truthy, hacc])]
    | some s =>
      by_cases hs : s = ""
      · rw [typesList_no_accept eng lookup h t0 [] c (by simp [truthy, hacc, hs])]
      · rw [typesList_single eng lookup h s t0 c hacc hs]
        split
        · rfl
        · split <;> rfl
  · cases hacc : h.accept with
    | none =>
      left
      rw [typesList_no_accept eng lookup h t0 (t1 :: rest) c (by simp [truthy, hacc])]
    | some s =>
      by_cases hs : s = ""
      · left
        rw [typesList_no_accept eng lookup h t0 (t1 :: rest) c
          (by simp [truthy, hacc, hs])]
      · by_cases hhit : jsGet c (typesKey s (t0 :: t1 :: rest)) = JSVal.vUndef
        · right
          exact ⟨s, rfl, hs, by simp, hhit,
            by rw [typesList_miss eng lookup h s t0 t1 rest c hacc hs hhit]⟩
        · left
          rw [typesList_hit eng lookup h s t0 t1 rest c hacc hs hhit]

theorem encodingsList_snd_cases (eng : Engine) (h : Headers)
    (es : List String) (c : Cache) :
    (encodingsList eng h es c).2 = c ∨
    ∃ s, h.acceptEncoding = some s ∧ s ≠ "" ∧ es ≠ [] ∧
      jsGet c (encodingsKey s es) = JSVal.vUndef ∧
      (encodingsList eng h es c).2 =
        cacheSet (if CACHE_SIZE_LIMIT ≤ c.length then clearCacheEntries c else c)
          (encodingsKey s es) (encodingsFresh eng (some s) es) := by
  rcases es with _ | ⟨e, es⟩
  · left; rfl
  · cases hacc : h.acceptEncoding with
    | none => left; rw [encodingsList_nocache eng h e es c (by simp [truthy, hacc])]
    | some s =>
      by_cases hs : s = ""
      · left; rw [encodingsList_nocache eng h e es c (by simp [truthy, hacc, hs])]
      · by_cases hhit : jsGet c (encodingsKey s (e :: es)) = JSVal.vUndef
        · right
          exact ⟨s, rfl, hs, by simp, hhit,
            by rw [encodingsList_miss eng h s e es c hacc hs hhit]⟩
        · left
          rw [encodingsList_hit eng h s e es c hacc hs hhit]

theorem charsetsList_snd_cases (eng : Engine) (h : Headers)
    (cs : List String) (c : Cache) :
    (charsetsList eng h cs c).2 = c ∨
    ∃ s, h.acceptCharset = some s ∧ s ≠ "" ∧ cs ≠ [] ∧
      jsGet c (charsetsKey s cs) = JSVal.vUndef ∧
      (charsetsList eng h cs c).2 =
        cacheSet (if CACHE_SIZE_LIMIT ≤ c.length then clearCacheEntries c else c)
          (charsetsKey s cs) (charsetsFresh eng (some s) cs) := by
  rcases cs with _ | ⟨e, cs⟩
  · left; rfl
  · cases hacc : h.acceptCharset with
    | none => left; rw [charsetsList_nocache eng h e cs c (by simp [truthy, hacc])]
    | some s =>
      by_cases hs : s = ""
      · left; rw [charsetsList_nocache eng h e cs c (by simp [truthy, hacc, hs])]
      · by_cases hhit : jsGet c (charsetsKey s (e :: cs)) = JSVal.vUndef
        · right
          exact ⟨s, rfl, hs, by simp, hhit,
            by rw [charsetsList_miss eng h s e cs c hacc hs hhit]⟩
        · left
          rw [charsetsList_hit eng h s e cs c hacc hs hhit]

theorem languagesList_snd_cases (eng : Engine) (h : Headers)
    (ls : List String) (c : Cache) :
    (languagesList eng h ls c).2 = c ∨
    ∃ s, h.acceptLanguage = some s ∧ s ≠ "" ∧ ls ≠ [] ∧
      jsGet c (languagesKey s ls) = JSVal.vUndef ∧
      (languagesList eng h ls c).2 =
        cacheSet (if CACHE_SIZE_LIMIT ≤ c.length then clearCacheEntries c else c)
          (languagesKey s ls) (languagesFresh eng (some s) ls) := by
  rcases ls with _ | ⟨e, ls⟩
  · left; rfl
  · cases hacc : h.acceptLanguage with
    | none => left; rw [languagesList_nocache eng h e ls c (by simp [truthy, hacc])]
    | some s =>
      by_cases hs : s = ""
      · left; rw [languagesList_nocache eng h e ls c (by simp [truthy, hacc, hs])]
      · by_cases hhit : jsGet c (languagesKey s (e :: ls)) = JSVal.vUndef
        · right
          exact ⟨s, rfl, hs, by simp, hhit,
            by rw [languagesList_miss eng h s e ls c hacc hs hhit]⟩
        · left
          rw [languagesList_hit eng h s e ls c hacc hs hhit]

theorem typesFresh_goodVal (eng : Engine) (lookup : String → Option String)
    (accept : Option String) (ts : List String) (hsub : MediaSubset eng) :
    GoodVal (typesFresh eng lookup accept ts) := by
  unfold GoodVal
  cases hft : firstTruthy (eng.mediaTypes accept
      ((resolvePairs lookup ts).map Prod.fst)) with
  | none =>
    refine Or.inr ?_
    simp only [typesFresh, hft]
  | some first =>
    have hmem := firstTruthy_mem hft
    have hin := hsub accept ((resolvePairs lookup ts).map Prod.fst) first hmem
    have hsm := mimeMapGet_isSome hin
    cases hg : mimeMapGet (resolvePairs lookup ts) first with
    | none => rw [hg] at hsm; simp at hsm
    | some orig =>
      refine Or.inl ⟨orig, ?_⟩
      simp only [typesFresh, hft, hg]

theorem encodingsFresh_goodVal (eng : Engine) (header : Option String)
    (es : List String) : GoodVal (encodingsFresh eng header es) := by
  unfold GoodVal encodingsFresh
  cases firstTruthy (eng.encodings header es) with
  | some e => exact Or.inl ⟨e, rfl⟩
  | none => exact Or.inr rfl

theorem charsetsFresh_goodVal (eng : Engine) (header : Option String)
    (cs : List String) : GoodVal (charsetsFresh eng header cs) := by
  unfold GoodVal charsetsFresh
  cases firstTruthy (eng.charsets header cs) with
  | some e => exact Or.inl ⟨e, rfl⟩
  | none => exact Or.inr rfl

theorem languagesFresh_goodVal (eng : Engine) (header : Option String)
    (ls : List String) : GoodVal (languagesFresh eng header ls) := by
  unfold GoodVal languagesFresh
  cases firstTruthy (eng.languages header ls) with
  | some e => exact Or.inl ⟨e, rfl⟩
  | none => exact Or.inr rfl

theorem typesList_fst_eq_fresh (eng : Engine) (lookup : String → Option String)
    {h : Headers} {s : String} {ts : List String} {c : Cache}
    (hcoh : CoherentTypes eng lookup c) (hacc : h.accept = some s)
    (hGA : GoodAccept s) (hGT : GoodToks ts) (hlen : 2 ≤ ts.length) :
    (typesList eng lookup h ts c).1 = typesFresh eng lookup (some s) ts := by
  rcases ts with _ | ⟨t0, _ | ⟨t1, rest⟩⟩
  · simp at hlen
  · simp at hlen
  · by_cases hhit : jsGet c (typesKey s (t0 :: t1 :: rest)) = JSVal.vUndef
    · rw [typesList_miss eng lookup h s t0 t1 rest c hacc hGA.1 hhit]
    · rw [typesList_hit eng lookup h s t0 t1 rest c hacc hGA.1 hhit]
      exact hcoh _ (jsGet_hit_mem hhit) s (t0 :: t1 :: rest) hGA hGT hlen rfl

theorem encodingsList_fst_eq_fresh (eng : Engine)
    {h : Headers} {s : String} {es : List String} {c : Cache}
    (hcoh : CoherentEncodings eng c) (hacc : h.acceptEncoding = some s)
    (hs : s ≠ "") (hGT : GoodToks es) (hne : es ≠ []) :
    (encodingsList eng h es c).1 = encodingsFresh eng (some s) es := by
  rcases es with _ | ⟨e, es⟩
  · exact absurd rfl hne
  · by_cases hhit : jsGet c (encodingsKey s (e :: es)) = JSVal.vUndef
    · rw [encodingsList_miss eng h s e es c hacc hs hhit]
    · rw [encodingsList_hit eng h s e es c hacc hs hhit]
      exact hcoh _ (jsGet_hit_mem hhit) s (e :: es) hs hGT (by simp) rfl

theorem charsetsList_fst_eq_fresh (eng : Engine)
    {h : Headers} {s : String} {cs : List String} {c : Cache}
    (hcoh : CoherentCharsets eng c) (hacc : h.acceptCharset = some s)
    (hs : s ≠ "") (hGT : GoodToks cs) (hne : cs ≠ []) :
    (charsetsList eng h cs c).1 = charsetsFresh eng (some s) cs := by
  rcases cs with _ | ⟨e, cs⟩
  · exact absurd rfl hne
  · by_cases hhit : jsGet c (charsetsKey s (e :: cs)) = JSVal.vUndef
    · rw [charsetsList_miss eng h s e cs c hacc hs hhit]
    · rw [charsetsList_hit eng h s e cs c hacc hs hhit]
      exact hcoh _ (jsGet_hit_mem hhit) s (e :: cs) hs hGT (by simp) rfl

theorem languagesList_fst_eq_fresh (eng : Engine)
    {h : Headers} {s : String} {ls : List String} {c : Cache}
    (hcoh : CoherentLanguages eng c) (hacc : h.acceptLanguage = some s)
    (hs : s ≠ "") (hGT : GoodToks ls) (hne : ls ≠ []) :
    (languagesList eng h ls c).1 = languagesFresh eng (some s) ls := by
  rcases ls with _ | ⟨e, ls⟩
  · exact absurd rfl hne
  · by_cases hhit : jsGet c (languagesKey s (e :: ls)) = JSVal.vUndef
    · rw [languagesList_miss eng h s e ls c hacc hs hhit]
    · rw [languagesList_hit eng h s e ls c hacc hs hhit]
      exact hcoh _ (jsGet_hit_mem hhit) s (e :: ls) hs hGT (by simp) rfl

theorem coherent_nil (eng : Engine) (lookup : String → Option String) :
    Coherent eng lookup ([] : Cache) :=
  ⟨fun p hp => absurd hp (List.not_mem_nil p),
   fun p hp => absurd hp (List.not_mem_nil p),
   fun p hp => absurd hp (List.not_mem_nil p),
   fun p hp => absurd hp (List.not_mem_nil p)⟩

theorem coherent_preserved (eng : Engine) (lookup : String → Option String)
    {c : Cache} (hcoh : Coherent eng lookup c)
    (call : Call) (hgood : GoodCall call) :
    Coherent eng lookup (runCall eng lookup c call) := by
  obtain ⟨hcT, hcE, hcC, hcL⟩ := hcoh
  cases call with
  | ctypes h ts =>
    obtain ⟨hGT, hGA⟩ := hgood
    show Coherent eng lookup (typesList eng lookup h ts c).2
    rcases typesList_snd_cases eng lookup h ts c with
      hunch | ⟨s, hacc, hs, hlen, _, heq⟩
    · rw [hunch]; exact ⟨hcT, hcE, hcC, hcL⟩
    · rw [heq]
      have hGAs : GoodAccept s := by
        have := hGA (by simp [truthy, hacc, hs])
        simpa [hacc] using this
      have hne : ts ≠ [] := by
        intro h0; rw [h0] at hlen; simp at hlen
      refine ⟨?_, ?_, ?_, ?_⟩
      · intro p hp s' ts' hGA' hGT' hlen' hkey
        rcases mem_cacheSet hp with hpnew | ⟨hpc, _⟩
        · rw [hpnew] at hkey ⊢
          have hne' : ts' ≠ [] := by
            intro h0; rw [h0] at hlen'; simp at hlen'
          obtain ⟨hs', hts'⟩ := typesKey_inj hGT hGT' hne hne' hkey
          rw [← hs', ← hts']
        · exact hcT p (mem_evict_if hpc) s' ts' hGA' hGT' hlen' hkey
      · intro p hp s' es' hs' hGT' hne' hkey
        rcases mem_cacheSet hp with hpnew | ⟨hpc, _⟩
        · rw [hpnew] at hkey
          exact absurd hkey (typesKey_ne_encodingsKey hGAs)
        · exact hcE p (mem_evict_if hpc) s' es' hs' hGT' hne' hkey
      · intro p hp s' cs' hs' hGT' hne' hkey
        rcases mem_cacheSet hp with hpnew | ⟨hpc, _⟩
        · rw [hpnew] at hkey
          exact absurd hkey (typesKey_ne_charsetsKey hGAs)
        · exact hcC p (mem_evict_if hpc) s' cs' hs' hGT' hne' hkey
      · intro p hp s' ls' hs' hGT' hne' hkey
        rcases mem_cacheSet hp with hpnew | ⟨hpc, _⟩
        · rw [hpnew] at hkey
          exact absurd hkey (typesKey_ne_languagesKey hGAs)
        · exact hcL p (mem_evict_if hpc) s' ls' hs' hGT' hne' hkey
  | cencodings h es =>
    have hGT : GoodToks es := hgood
    show Coherent eng lookup (encodingsList eng h es c).2
    rcases encodingsList_snd_cases eng h es c with
      hunch | ⟨s, _, hs, hne, _, heq⟩
    · rw [hunch]; exact ⟨hcT, hcE, hcC, hcL⟩
    · rw [heq]
      refine ⟨?_, ?_, ?_, ?_⟩
      · intro p hp s' ts' hGA' hGT' hlen' hkey
        rcases mem_cacheSet hp with hpnew | ⟨hpc, _⟩
        · rw [hpnew] at hkey
          exact absurd hkey.symm (typesKey_ne_encodingsKey hGA')
        · exact hcT p (mem_evict_if hpc) s' ts' hGA' hGT' hlen' hkey
      · intro p hp s' es' hs' hGT' hne' hkey
        rcases mem_cacheSet hp with hpnew | ⟨hpc, _⟩
        · rw [hpnew] at hkey ⊢
          obtain ⟨hs2, hes2⟩ := encodingsKey_inj hGT hGT' hne hne' hkey
          rw [← hs2, ← hes2]
        · exact hcE p (mem_evict_if hpc) s' es' hs' hGT' hne' hkey
      · intro p hp s' cs' hs' hGT' hne' hkey
        rcases mem_cacheSet hp with hpnew | ⟨hpc, _⟩
        · rw [hpnew] at hkey
          exact absurd hkey encodingsKey_ne_charsetsKey
        · exact hcC p (mem_evict_if hpc) s' cs' hs' hGT' hne' hkey
      · intro p hp s' ls' hs' hGT' hne' hkey
        rcases mem_cacheSet hp with hpnew | ⟨hpc, _⟩
        · rw [hpnew] at hkey
          exact absurd hkey encodingsKey_ne_languagesKey
        · exact hcL p (mem_evict_if hpc) s' ls' hs' hGT' hne' hkey
  | ccharsets h cs =>
    have hGT : GoodToks cs := hgood
    show Coherent eng lookup (charsetsList eng h cs c).2
    rcases charsetsList_snd_cases eng h cs c with
      hunch | ⟨s, _, hs, hne, _, heq⟩
    · rw [hunch]; exact ⟨hcT, hcE, hcC, hcL⟩
    · rw [heq]
      refine ⟨?_, ?_, ?_, ?_⟩
      · intro p hp s' ts' hGA' hGT' hlen' hkey
        rcases mem_cacheSet hp with hpnew | ⟨hpc, _⟩
        · rw [hpnew] at hkey
          exact absurd hkey.symm (typesKey_ne_charsetsKey hGA')
        · exact hcT p (mem_evict_if hpc) s' ts' hGA' hGT' hlen' hkey
      · intro p hp s' es' hs' hGT' hne' hkey
        rcases mem_cacheSet hp with hpnew | ⟨hpc, _⟩
        · rw [hpnew] at hkey
          exact absurd hkey.symm encodingsKey_ne_charsetsKey
        · exact hcE p (mem_evict_if hpc) s' es' hs' hGT' hne' hkey
      · intro p hp s' cs' hs' hGT' hne' hkey
        rcases mem_cacheSet hp with hpnew | ⟨hpc, _⟩
        · rw [hpnew] at hkey ⊢
          obtain ⟨hs2, hcs2⟩ := charsetsKey_inj hGT hGT' hne hne' hkey
          rw [← hs2, ← hcs2]
        · exact hcC p (mem_evict_if hpc) s' cs' hs' hGT' hne' hkey
      · intro p hp s' ls' hs' hGT' hne' hkey
        rcases mem_cacheSet hp with hpnew | ⟨hpc, _⟩
        · rw [hpnew] at hkey
          exact absurd hkey charsetsKey_ne_languagesKey
        · exact hcL p (mem_evict_if hpc) s' ls' hs' hGT' hne' hkey
  | clanguages h ls =>
    have hGT : GoodToks ls := hgood
    show Coherent eng lookup (languagesList eng h ls c).2
    rcases languagesList_snd_cases eng h ls c with
      hunch | ⟨s, _, hs, hne, _, heq⟩
    · rw [hunch]; exact ⟨hcT, hcE, hcC, hcL⟩
    · rw [heq]
      refine ⟨?_, ?_, ?_, ?_⟩
      · intro p hp s' ts' hGA' hGT' hlen' hkey
        rcases mem_cacheSet hp with hpnew | ⟨hpc, _⟩
        · rw [hpnew] at hkey
          exact absurd hkey.symm (typesKey_ne_languagesKey hGA')
        · exact hcT p (mem_evict_if hpc) s' ts' hGA' hGT' hlen' hkey
      · intro p hp s' es' hs' hGT' hne' hkey
        rcases mem_cacheSet hp with hpnew | ⟨hpc, _⟩
        · rw [hpnew] at hkey
          exact absurd hkey.symm encodingsKey_ne_languagesKey
        · exact hcE p (mem_evict_if hpc) s' es' hs' hGT' hne' hkey
      · intro p hp s' cs' hs' hGT' hne' hkey
        rcases mem_cacheSet hp with hpnew | ⟨hpc, _⟩
        · rw [hpnew] at hkey
          exact absurd hkey.symm charsetsKey_ne_languagesKey
        · exact hcC p (mem_evict_if hpc) s' cs' hs' hGT' hne' hkey
      · intro p hp s' ls' hs' hGT' hne' hkey
        rcases mem_cacheSet hp with hpnew | ⟨hpc, _⟩
        · rw [hpnew] at hkey ⊢
          obtain ⟨hs2, hls2⟩ := languagesKey_inj hGT hGT' hne hne' hkey
          rw [← hs2, ← hls2]
        · exact hcL p (mem_evict_if hpc) s' ls' hs' hGT' hne' hkey

theorem mimeMapGet_last_aux (lookup : String → Option String) (m : String) :
    ∀ (ts : List String) (acc : Option String),
    (resolvePairs lookup ts).foldl
        (fun a p => if p.1 == m then some p.2 else a) acc =
      match (ts.filter (fun t => extToMime lookup t == some m)).getLast? with
      | some o => some o
      | none => acc := by
  intro ts
  induction ts with
  | nil => intro acc; rfl
  | cons t ts ih =>
    intro acc
    cases hEt : extToMime lookup t with
    | none =>
      have h1 : resolvePairs lookup (t :: ts) = resolvePairs lookup ts := by
        simp [resolvePairs, List.filterMap_cons, hEt]
      have h2 : (t :: ts).filter (fun u => extToMime lookup u == some m) =
          ts.filter (fun u => extToMime lookup u == some m) := by
        simp [List.filter_cons, hEt]
      rw [h1, h2]
      exact ih acc
    | some mt =>
      have h1 : resolvePairs lookup (t :: ts) = (mt, t) :: resolvePairs lookup ts := by
        simp [resolvePairs, List.filterMap_cons, hEt]
      rw [h1, List.foldl_cons]
      by_cases hmt : (mt == m) = true
      · have hmt' : mt = m := by simpa using hmt
        have h2 : (t :: ts).filter (fun u => extToMime lookup u == some m) =
            t :: ts.filter (fun u => extToMime lookup u == some m) := by
          simp [List.filter_cons, hEt, hmt']
        rw [h2, if_pos hmt, ih (some t)]
        cases hgl : (ts.filter (fun u => extToMime lookup u == some m)).getLast? with
        | none =>
          have hemp : ts.filter (fun u => extToMime lookup u == some m) = [] := by
            simpa using hgl
          rw [hemp]
          rfl
        | some o =>
          rcases hfl : ts.filter (fun u => extToMime lookup u == some m) with
            _ | ⟨x, xs⟩
          · rw [hfl] at hgl; simp at hgl
          · rw [hfl] at hgl
            rw [List.getLast?_cons_cons, hgl]
      · have h2 : (t :: ts).filter (fun u => extToMime lookup u == some m) =
            ts.filter (fun u => extToMime lookup u == some m) := by
          simp only [List.filter_cons, hEt]
          simp [hmt]
        rw [h2, if_neg hmt]
        exact ih acc

theorem mimeMapGet_eq_lastResolved (lookup : String → Option String)
    (ts : List String) (m : String) :
    mimeMapGet (resolvePairs lookup ts) m = lastResolved lookup ts m := by
  unfold mimeMapGet lastResolved
  rw [mimeMapGet_last_aux lookup m ts none]
  cases (ts.filter (fun t => extToMime lookup t == some m)).getLast? <;> rfl

theorem insert_length {c : Cache} (k : String) (v : JSVal)
    (hc : c.length ≤ CACHE_SIZE_LIMIT) :
    (cacheSet (if CACHE_SIZE_LIMIT ≤ c.length then clearCacheEntries c else c)
      k v).length ≤ CACHE_SIZE_LIMIT := by
  by_cases hb : CACHE_SIZE_LIMIT ≤ c.length
  · rw [if_pos hb]
    have h1 := length_cacheSet (clearCacheEntries c) k v
    have h2 := length_clearCacheEntries c
    unfold CACHE_SIZE_LIMIT at *
    omega
  · rw [if_neg hb]
    have h1 := length_cacheSet c k v
    unfold CACHE_SIZE_LIMIT at *
    omega

theorem runCall_length (eng : Engine) (lookup : String → Option String)
    {c : Cache} (call : Call) (hc : c.length ≤ CACHE_SIZE_LIMIT) :
    (runCall eng lookup c call).length ≤ CACHE_SIZE_LIMIT := by
  cases call with
  | ctypes h ts =>
    show (typesList eng lookup h ts c).2.length ≤ CACHE_SIZE_LIMIT
    rcases typesList_snd_cases eng lookup h ts c with hunch | ⟨s, _, _, _, _, heq⟩
    · rw [hunch]; exact hc
    · rw [heq]; exact insert_length _ _ hc
  | cencodings h es =>
    show (encodingsList eng h es c).2.length ≤ CACHE_SIZE_LIMIT
    rcases encodingsList_snd_cases eng h es c with hunch | ⟨s, _, _, _, _, heq⟩
    · rw [hunch]; exact hc
    · rw [heq]; exact insert_length _ _ hc
  | ccharsets h cs =>
    show (charsetsList eng h cs c).2.length ≤ CACHE_SIZE_LIMIT
    rcases charsetsList_snd_cases eng h cs c with hunch | ⟨s, _, _, _, _, heq⟩
    · rw [hunch]; exact hc
    · rw [heq]; exact insert_length _ _ hc
  | clanguages h ls =>
    show (languagesList eng h ls c).2.length ≤ CACHE_SIZE_LIMIT
    rcases languagesList_snd_cases eng h ls c with hunch | ⟨s, _, _, _, _, heq⟩
    · rw [hunch]; exact hc
    · rw [heq]; exact insert_length _ _ hc

/-- C5: after any sequence of insertions through the four negotiation
operations, the shared result cache's entry count never exceeds the
configured maximum of 1000; at or above the bound, a batch of 100 entries
is evicted before the new entry is inserted. -/
theorem cache_bound_invariant (eng : Engine) (lookup : String → Option String)
    (calls : List Call) (c : Cache) (hc : c.length ≤ CACHE_SIZE_LIMIT) :
    (calls.foldl (runCall eng lookup) c).length ≤ CACHE_SIZE_LIMIT ∧
    (∀ c' : Cache, CACHE_SIZE_LIMIT ≤ c'.length →
      (clearCacheEntries c').length = c'.length - 100) := by
  constructor
  · induction calls generalizing c with
    | nil => exact hc
    | cons call calls ih =>
      rw [List.foldl_cons]
      exact ih _ (runCall_length eng lookup call hc)
  · intro c' _
    exact length_clearCacheEntries c'

/-- C5 witness: a concrete run from the empty cache stays within the
bound. -/
theorem cache_bound_invariant_witness :
    (([Call.ctypes hdrTextC ["a/b", "c/d"]].foldl (runCall engId lookupNone)
        ([] : Cache)).length ≤ CACHE_SIZE_LIMIT) ∧
    (∀ c' : Cache, CACHE_SIZE_LIMIT ≤ c'.length →
      (clearCacheEntries c').length = c'.length - 100) :=
  cache_bound_invariant engId lookupNone [Call.ctypes hdrTextC ["a/b", "c/d"]]
    [] (by decide)

/-- C6: with the `Accept` header entirely absent and at least one
candidate, `types` returns the first candidate unmodified; the engine is
never consulted (the right-hand side is independent of `eng`) and the
cache is left untouched. -/
theorem types_no_header_fast_path (eng : Engine)
    (lookup : String → Option String) (h : Headers) (t : String)
    (rest : List String) (c : Cache) (hacc : h.accept = none) :
    typesList eng lookup h (t :: rest) c = (JSVal.vStr t, c) :=
  typesList_no_accept eng lookup h t rest c (by simp [truthy, hacc])

/-- C6 witness: no `Accept` header, candidates `html, json` give `html`. -/
theorem types_no_header_fast_path_witness :
    typesList engId lookupNone hdrNone ["html", "json"] [] =
      (JSVal.vStr "html", []) :=
  types_no_header_fast_path engId lookupNone hdrNone "html" ["json"] [] rfl

/-- C9: an `Accept` header that is present but equal to the empty string
takes the same fast path as an absent header: the first candidate is
returned and neither the engine nor the cache is consulted. -/
theorem types_empty_header_fast_path (eng : Engine)
    (lookup : String → Option String) (h : Headers) (t : String)
    (rest : List String) (c : Cache) (hacc : h.accept = some "") :
    typesList eng lookup h (t :: rest) c = (JSVal.vStr t, c) :=
  typesList_no_accept eng lookup h t rest c (by simp [truthy, hacc])

/-- C9 witness: `Accept:` present but empty, candidates `html, json` give
`html`. -/
theorem types_empty_header_fast_path_witness :
    typesList engId lookupNone hdrEmpty ["html", "json"] [] =
      (JSVal.vStr "html", []) :=
  types_empty_header_fast_path engId lookupNone hdrEmpty "html" ["json"] [] rfl

/-- C7: with a truthy `Accept` header and exactly one candidate, the call
leaves the cache untouched, is independent of the cache contents, returns
`false` when the candidate resolves to an invalid identifier, and
otherwise returns the original token exactly when the engine (offered the
singleton canonical list) accepts it. -/
theorem types_single_candidate_path (eng : Engine)
    (lookup : String → Option String) (h : Headers) (s t : String) (c : Cache)
    (hacc : h.accept = some s) (hs : s ≠ "") :
    (typesList eng lookup h [t] c).2 = c ∧
    (∀ c' : Cache,
      (typesList eng lookup h [t] c').1 = (typesList eng lookup h [t] c).1) ∧
    (extToMime lookup t = none → (typesList eng lookup h [t] c).1 = JSVal.vFalse) ∧
    (∀ m, extToMime lookup t = some m → m ≠ "" →
      (∀ x ∈ eng.mediaTypes (some s) [m], x ∈ [m]) →
      (typesList eng lookup h [t] c).1 =
        (if eng.mediaTypes (some s) [m] = [] then JSVal.vFalse
         else JSVal.vStr t)) := by
  refine ⟨?_, ?_, ?_, ?_⟩
  · rw [typesList_single eng lookup h s t c hacc hs]
    split
    · rfl
    · split <;> rfl
  · intro c'
    rw [typesList_single eng lookup h s t c hacc hs,
        typesList_single eng lookup h s t c' hacc hs]
    split
    · rfl
    · split <;> rfl
  · intro hEm
    rw [typesList_single eng lookup h s t c hacc hs, hEm]
  · intro m hEm hm0 hsub
    rw [typesList_single eng lookup h s t c hacc hs, hEm]
    cases hml : eng.mediaTypes (some s) [m] with
    | nil => simp [firstTruthy, hml]
    | cons x xs =>
      have hx : x ∈ [m] := hsub x (hml ▸ List.mem_cons_self x xs)
      have hxm : x = m := by simpa using hx
      have hxe : (x == "") = false :=
        beq_eq_false_iff_ne.mpr (by rw [hxm]; exact hm0)
      simp [firstTruthy, hml, hxe]

/-- C7 witness: single candidate `png` with no extension entry against a
present `Accept` header resolves invalid, so all four conjuncts
instantiate; in particular the call yields `false`. -/
theorem types_single_candidate_path_witness :
    ((typesList engId lookupNone hdrTextC ["png"] []).2 = [] ∧
     (∀ c' : Cache, (typesList engId lookupNone hdrTextC ["png"] c').1 =
        (typesList engId lookupNone hdrTextC ["png"] []).1) ∧
     (extToMime lookupNone "png" = none →
        (typesList engId lookupNone hdrTextC ["png"] []).1 = JSVal.vFalse) ∧
     (∀ m, extToMime lookupNone "png" = some m → m ≠ "" →
        (∀ x ∈ engId.mediaTypes (some "text/c") [m], x ∈ [m]) →
        (typesList engId lookupNone hdrTextC ["png"] []).1 =
          (if engId.mediaTypes (some "text/c") [m] = [] then JSVal.vFalse
           else JSVal.vStr "png"))) :=
  types_single_candidate_path engId lookupNone hdrTextC "text/c" "png" []
    rfl (by decide)

/-- C8: when the miss test succeeds on a cache that stores no `undefined`
values, the key about to be inserted is absent, so eviction cannot remove
it; and eviction on the empty store is a no-op. -/
theorem eviction_safety :
    (∀ (c : Cache) (k : String), (∀ p ∈ c, p.2 ≠ JSVal.vUndef) →
      jsGet c k = JSVal.vUndef →
      (∀ p ∈ c, p.1 ≠ k) ∧ (∀ p ∈ clearCacheEntries c, p.1 ≠ k)) ∧
    clearCacheEntries ([] : Cache) = [] := by
  constructor
  · intro c k hnu hmiss
    have habs := jsGet_vUndef_absent hnu hmiss
    exact ⟨habs, fun p hp => habs p (mem_clearCacheEntries hp)⟩
  · rfl

/-- C8 witness: a concrete store with one entry and a missing key. -/
theorem eviction_safety_witness :
    (∀ p ∈ ([("k", JSVal.vFalse)] : Cache), p.1 ≠ "x") ∧
    (∀ p ∈ clearCacheEntries ([("k", JSVal.vFalse)] : Cache), p.1 ≠ "x") :=
  eviction_safety.1 [("k", JSVal.vFalse)] "x" (by decide) (by decide)

/-- C10: under the engine contract (results are offered candidates),
every value the four operations write into the cache is a token string or
`false`, never `undefined`; consequently a cached `false` outcome hits
(it is served back with the cache unchanged, not recomputed). -/
theorem cache_values_never_undefined (eng : Engine)
    (lookup : String → Option String) (hsub : MediaSubset eng)
    (c : Cache) (hc : ∀ p ∈ c, GoodVal p.2) :
    (∀ call : Call, ∀ p ∈ runCall eng lookup c call, GoodVal p.2) ∧
    (∀ (h : Headers) (s : String) (ts : List String), h.accept = some s →
      s ≠ "" → 2 ≤ ts.length → jsGet c (typesKey s ts) = JSVal.vFalse →
      typesList eng lookup h ts c = (JSVal.vFalse, c)) ∧
    (∀ (h : Headers) (s : String) (es : List String),
      h.acceptEncoding = some s → s ≠ "" → es ≠ [] →
      jsGet c (encodingsKey s es) = JSVal.vFalse →
      encodingsList eng h es c = (JSVal.vFalse, c)) := by
  refine ⟨?_, ?_, ?_⟩
  · intro call p hp
    cases call with
    | ctypes h ts =>
      have hp' : p ∈ (typesList eng lookup h ts c).2 := hp
      rcases typesList_snd_cases eng lookup h ts c with hunch | ⟨s, _, _, _, _, heq⟩
      · rw [hunch] at hp'
        exact hc p hp'
      · rw [heq] at hp'
        rcases mem_cacheSet hp' with hpn | ⟨hpc, _⟩
        · rw [hpn]
          exact typesFresh_goodVal eng lookup (some s) ts hsub
        · exact hc p (mem_evict_if hpc)
    | cencodings h es =>
      have hp' : p ∈ (encodingsList eng h es c).2 := hp
      rcases encodingsList_snd_cases eng h es c with hunch | ⟨s, _, _, _, _, heq⟩
      · rw [hunch] at hp'
        exact hc p hp'
      · rw [heq] at hp'
        rcases mem_cacheSet hp' with hpn | ⟨hpc, _⟩
        · rw [hpn]
          exact encodingsFresh_goodVal eng (some s) es
        · exact hc p (mem_evict_if hpc)
    | ccharsets h cs =>
      have hp' : p ∈ (charsetsList eng h cs c).2 := hp
      rcases charsetsList_snd_cases eng h cs c with hunch | ⟨s, _, _, _, _, heq⟩
      · rw [hunch] at hp'
        exact hc p hp'
      · rw [heq] at hp'
        rcases mem_cacheSet hp' with hpn | ⟨hpc, _⟩
        · rw [hpn]
          exact charsetsFresh_goodVal eng (some s) cs
        · exact hc p (mem_evict_if hpc)
    | clanguages h ls =>
      have hp' : p ∈ (languagesList eng h ls c).2 := hp
      rcases languagesList_snd_cases eng h ls c with hunch | ⟨s, _, _, _, _, heq⟩
      · rw [hunch] at hp'
        exact hc p hp'
      · rw [heq] at hp'
        rcases mem_cacheSet hp' with hpn | ⟨hpc, _⟩
        · rw [hpn]
          exact languagesFresh_goodVal eng (some s) ls
        · exact hc p (mem_evict_if hpc)
  · intro h s ts hacc hs hlen hfalse
    rcases ts with _ | ⟨t0, _ | ⟨t1, rest⟩⟩
    · simp at hlen
    · simp at hlen
    · have hne : jsGet c (typesKey s (t0 :: t1 :: rest)) ≠ JSVal.vUndef := by
        simp [hfalse]
      rw [typesList_hit eng lookup h s t0 t1 rest c hacc hs hne, hfalse]
  · intro h s es hacc hs hne0 hfalse
    rcases es with _ | ⟨e, es⟩
    · exact absurd rfl hne0
    · have hne : jsGet c (encodingsKey s (e :: es)) ≠ JSVal.vUndef := by
        simp [hfalse]
      rw [encodingsList_hit eng h s e es c hacc hs hne, hfalse]

/-- C10 witness: the invariant instantiated on the empty cache with the
identity engine (which satisfies the offered-candidates contract). -/
theorem cache_values_never_undefined_witness :
    (∀ call : Call, ∀ p ∈ runCall engId lookupNone [] call, GoodVal p.2) ∧
    (∀ (h : Headers) (s : String) (ts : List String), h.accept = some s →
      s ≠ "" → 2 ≤ ts.length → jsGet [] (typesKey s ts) = JSVal.vFalse →
      typesList engId lookupNone h ts [] = (JSVal.vFalse, [])) ∧
    (∀ (h : Headers) (s : String) (es : List String),
      h.acceptEncoding = some s → s ≠ "" → es ≠ [] →
      jsGet [] (encodingsKey s es) = JSVal.vFalse →
      encodingsList engId h es [] = (JSVal.vFalse, [])) :=
  cache_values_never_undefined engId lookupNone (fun _ _ _ hx => hx) []
    (fun p hp => absurd hp (List.not_mem_nil p))

/-- C1 counterexample: with tokens containing the join separator, a
result served from the shared cache differs from the result computed
fresh by the engine for the same header and candidate sequence: the call
on `["text/a", "text/b,text/c"]` hits the entry written by
`["text/a,text/b", "text/c"]` (same key) and returns `text/c`, while the
fresh computation yields `false`. -/
theorem cache_transparency_counterexample :
    (typesList engSel lookupNone hdrTextC ["text/a", "text/b,text/c"]
        ((typesList engSel lookupNone hdrTextC ["text/a,text/b", "text/c"]
          []).2)).1 = JSVal.vStr "text/c" ∧
    typesFresh engSel lookupNone (some "text/c") ["text/a", "text/b,text/c"] =
      JSVal.vFalse ∧
    (typesList engSel lookupNone hdrTextC ["text/a", "text/b,text/c"]
        ((typesList engSel lookupNone hdrTextC ["text/a,text/b", "text/c"]
          []).2)).1 ≠
      typesFresh engSel lookupNone (some "text/c") ["text/a", "text/b,text/c"] := by
  refine ⟨by decide, by decide, by decide⟩

/-- C1 (amended): on a coherent cache, and for calls whose candidate
tokens contain neither `,` nor `|` and whose `Accept` value does not begin
with a family tag, every cached negotiation result (hit or miss) equals
the fresh engine computation, coherence is preserved by every such call,
and two identical calls on contexts with identical headers over coherent
caches yield identical results. -/
theorem cache_transparency_idempotence_amended (eng : Engine)
    (lookup : String → Option String) (c : Cache)
    (hcoh : Coherent eng lookup c) :
    (∀ (h : Headers) (s : String) (ts : List String), h.accept = some s →
       GoodAccept s → GoodToks ts → 2 ≤ ts.length →
       (typesList eng lookup h ts c).1 = typesFresh eng lookup (some s) ts) ∧
    (∀ (h : Headers) (s : String) (es : List String),
       h.acceptEncoding = some s → s ≠ "" → GoodToks es → es ≠ [] →
       (encodingsList eng h es c).1 = encodingsFresh eng (some s) es) ∧
    (∀ (h : Headers) (s : String) (cs : List String),
       h.acceptCharset = some s → s ≠ "" → GoodToks cs → cs ≠ [] →
       (charsetsList eng h cs c).1 = charsetsFresh eng (some s) cs) ∧
    (∀ (h : Headers) (s : String) (ls : List String),
       h.acceptLanguage = some s → s ≠ "" → GoodToks ls → ls ≠ [] →
       (languagesList eng h ls c).1 = languagesFresh eng (some s) ls) ∧
    (∀ call : Call, GoodCall call →
       Coherent eng lookup (runCall eng lookup c call)) ∧
    (∀ c' : Cache, Coherent eng lookup c' →
       ∀ (h h' : Headers) (s : String) (ts : List String),
         h.accept = some s → h'.accept = some s → GoodAccept s → GoodToks ts →
         2 ≤ ts.length →
         (typesList eng lookup h ts c).1 = (typesList eng lookup h' ts c').1) := by
  obtain ⟨hcT, hcE, hcC, hcL⟩ := hcoh
  refine ⟨?_, ?_, ?_, ?_, ?_, ?_⟩
  · intro h s ts hacc hGA hGT hlen
    exact typesList_fst_eq_fresh eng lookup hcT hacc hGA hGT hlen
  · intro h s es hacc hs hGT hne
    exact encodingsList_fst_eq_fresh eng hcE hacc hs hGT hne
  · intro h s cs hacc hs hGT hne
    exact charsetsList_fst_eq_fresh eng hcC hacc hs hGT hne
  · intro h s ls hacc hs hGT hne
    exact languagesList_fst_eq_fresh eng hcL hacc hs hGT hne
  · intro call hg
    exact coherent_preserved eng lookup ⟨hcT, hcE, hcC, hcL⟩ call hg
  · intro c' hcoh' h h' s ts hacc hacc' hGA hGT hlen
    rw [typesList_fst_eq_fresh eng lookup hcT hacc hGA hGT hlen,
        typesList_fst_eq_fresh eng lookup hcoh'.1 hacc' hGA hGT hlen]

/-- C1 witness: the amended transparency applied on the empty (coherent)
cache at a concrete delimiter-free call. -/
theorem cache_transparency_idempotence_amended_witness :
    (typesList engSel lookupNone hdrTextC ["a/b", "c/d"] []).1 =
      typesFresh engSel lookupNone (some "text/c") ["a/b", "c/d"] :=
  (cache_transparency_idempotence_amended engSel lookupNone []
      (coherent_nil engSel lookupNone)).1 hdrTextC "text/c" ["a/b", "c/d"]
    rfl (by decide) (by decide) (by decide)

/-- C2 counterexample: the key derivation is not injective: tokens
containing the join separator collide within the media-type family, and a
crafted `Accept` value collides with an encoding-family key. -/
theorem cacheKey_injective_counterexample :
    typesKey "text/html" ["b,c", "d"] = typesKey "text/html" ["b", "c,d"] ∧
    (["b,c", "d"] : List String) ≠ ["b", "c,d"] ∧
    typesKey "enc:gzip" ["a", "b"] = encodingsKey "gzip" ["a", "b"] := by
  refine ⟨by decide, by decide, by decide⟩

/-- C2 (amended): identical inputs give identical keys by definition, and
the derivation is injective provided candidate tokens contain neither `,`
nor `|` — within each family unconditionally, and across families
provided the media-type `Accept` value does not begin with a family
tag. -/
theorem cacheKey_injective_amended :
    (∀ (s₁ : String) (ts₁ : List String) (s₂ : String) (ts₂ : List String),
      GoodToks ts₁ → GoodToks ts₂ → ts₁ ≠ [] → ts₂ ≠ [] →
      typesKey s₁ ts₁ = typesKey s₂ ts₂ → s₁ = s₂ ∧ ts₁ = ts₂) ∧
    (∀ (s₁ : String) (es₁ : List String) (s₂ : String) (es₂ : List String),
      GoodToks es₁ → GoodToks es₂ → es₁ ≠ [] → es₂ ≠ [] →
      encodingsKey s₁ es₁ = encodingsKey s₂ es₂ → s₁ = s₂ ∧ es₁ = es₂) ∧
    (∀ (s₁ : String) (cs₁ : List String) (s₂ : String) (cs₂ : List String),
      GoodToks cs₁ → GoodToks cs₂ → cs₁ ≠ [] → cs₂ ≠ [] →
      charsetsKey s₁ cs₁ = charsetsKey s₂ cs₂ → s₁ = s₂ ∧ cs₁ = cs₂) ∧
    (∀ (s₁ : String) (ls₁ : List String) (s₂ : String) (ls₂ : List String),
      GoodToks ls₁ → GoodToks ls₂ → ls₁ ≠ [] → ls₂ ≠ [] →
      languagesKey s₁ ls₁ = languagesKey s₂ ls₂ → s₁ = s₂ ∧ ls₁ = ls₂) ∧
    (∀ (s₁ : String) (ts : List String) (s₂ : String) (es : List String),
      GoodAccept s₁ → typesKey s₁ ts ≠ encodingsKey s₂ es) ∧
    (∀ (s₁ : String) (ts : List String) (s₂ : String) (cs : List String),
      GoodAccept s₁ → typesKey s₁ ts ≠ charsetsKey s₂ cs) ∧
    (∀ (s₁ : String) (ts : List String) (s₂ : String) (ls : List String),
      GoodAccept s₁ → typesKey s₁ ts ≠ languagesKey s₂ ls) ∧
    (∀ (s₁ : String) (es : List String) (s₂ : String) (cs : List String),
      encodingsKey s₁ es ≠ charsetsKey s₂ cs) ∧
    (∀ (s₁ : String) (es : List String) (s₂ : String) (ls : List String),
      encodingsKey s₁ es ≠ languagesKey s₂ ls) ∧
    (∀ (s₁ : String) (cs : List String) (s₂ : String) (ls : List String),
      charsetsKey s₁ cs ≠ languagesKey s₂ ls) := by
  refine ⟨?_, ?_, ?_, ?_, ?_, ?_, ?_, ?_, ?_, ?_⟩
  · intro s₁ ts₁ s₂ ts₂ h₁ h₂ n₁ n₂ h
    exact typesKey_inj h₁ h₂ n₁ n₂ h
  · intro s₁ es₁ s₂ es₂ h₁ h₂ n₁ n₂ h
    exact encodingsKey_inj h₁ h₂ n₁ n₂ h
  · intro s₁ cs₁ s₂ cs₂ h₁ h₂ n₁ n₂ h
    exact charsetsKey_inj h₁ h₂ n₁ n₂ h
  · intro s₁ ls₁ s₂ ls₂ h₁ h₂ n₁ n₂ h
    exact languagesKey_inj h₁ h₂ n₁ n₂ h
  · intro s₁ ts s₂ es hGA
    exact typesKey_ne_encodingsKey hGA
  · intro s₁ ts s₂ cs hGA
    exact typesKey_ne_charsetsKey hGA
  · intro s₁ ts s₂ ls hGA
    exact typesKey_ne_languagesKey hGA
  · intro s₁ es s₂ cs
    exact encodingsKey_ne_charsetsKey
  · intro s₁ es s₂ ls
    exact encodingsKey_ne_languagesKey
  · intro s₁ cs s₂ ls
    exact charsetsKey_ne_languagesKey

/-- C2 witness: the media-type injectivity applied at a concrete pair of
delimiter-free calls with equal keys. -/
theorem cacheKey_injective_amended_witness :
    ("text/html" : String) = "text/html" ∧
      (["a", "b"] : List String) = ["a", "b"] :=
  cacheKey_injective_amended.1 "text/html" ["a", "b"] "text/html" ["a", "b"]
    (by decide) (by decide) (by decide) (by decide) rfl

/-- C3 counterexample: candidates `html` and `text/html` both resolve to
the canonical `text/html`; the general path returns the last-listed
token `text/html`, not the first-listed `html`. -/
theorem reverse_mapping_first_wins_counterexample :
    (typesList engId lookupHtml hdrHtml ["html", "text/html"] []).1 =
      JSVal.vStr "text/html" ∧
    (typesList engId lookupHtml hdrHtml ["html", "text/html"] []).1 ≠
      JSVal.vStr "html" := by
  refine ⟨by decide, by decide⟩

/-- C3 (amended): in the media-type general path, when two candidates
resolve to the same canonical identifier the reverse mapping retains the
LAST occurrence in caller order (each later `mimeMap.set` overwrites the
earlier binding), so the returned token for the engine's chosen canonical
identifier is the latest-listed candidate that resolved to it. -/
theorem reverse_mapping_last_wins (eng : Engine)
    (lookup : String → Option String) (h : Headers) (s t0 t1 : String)
    (rest : List String) (c : Cache) (m : String)
    (hacc : h.accept = some s) (hs : s ≠ "")
    (hmiss : jsGet c (typesKey s (t0 :: t1 :: rest)) = JSVal.vUndef)
    (hm : firstTruthy (eng.mediaTypes (some s)
        ((resolvePairs lookup (t0 :: t1 :: rest)).map Prod.fst)) = some m) :
    (typesList eng lookup h (t0 :: t1 :: rest) c).1 =
      match lastResolved lookup (t0 :: t1 :: rest) m with
      | some o => JSVal.vStr o
      | none => JSVal.vUndef := by
  rw [typesList_miss eng lookup h s t0 t1 rest c hacc hs hmiss]
  show typesFresh eng lookup (some s) (t0 :: t1 :: rest) = _
  simp only [typesFresh, hm, mimeMapGet_eq_lastResolved]

/-- C3 witness: the amended reverse-mapping rule at the concrete call of
the counterexample. -/
theorem reverse_mapping_last_wins_witness :
    (typesList engId lookupHtml hdrHtml ["html", "text/html"] []).1 =
      match lastResolved lookupHtml ["html", "text/html"] "text/html" with
      | some o => JSVal.vStr o
      | none => JSVal.vUndef :=
  reverse_mapping_last_wins engId lookupHtml hdrHtml "text/html" "html"
    "text/html" [] [] "text/html" rfl (by decide) (by decide) (by decide)

/-- C4 counterexample: with an empty string as first token, the variadic
form falls into the zero-candidate branch (the first argument is falsy
and variadic normalization is skipped) while the array form runs the
general path, so the two forms disagree. -/
theorem variadic_array_equiv_counterexample :
    (typesVariadic engFull lookupJson hdrHtml ["", "json"] []).1 =
      JSVal.vList ["EVERYTHING"] ∧
    (typesList engFull lookupJson hdrHtml ["", "json"] []).1 =
      JSVal.vStr "json" ∧
    (typesVariadic engFull lookupJson hdrHtml ["", "json"] []).1 ≠
      (typesList engFull lookupJson hdrHtml ["", "json"] []).1 := by
  refine ⟨by decide, by decide, by decide⟩

/-- C4 (amended): for all four negotiation operations, the variadic form
and the array form agree whenever either no token is passed or the first
token is truthy (a nonempty string). -/
theorem variadic_array_equiv_amended (eng : Engine)
    (lookup : String → Option String) (h : Headers) (c : Cache)
    (args : List String)
    (hargs : args = [] ∨ ∃ a rest, args = a :: rest ∧ a ≠ "") :
    typesVariadic eng lookup h args c = typesList eng lookup h args c ∧
    encodingsVariadic eng h args c = encodingsList eng h args c ∧
    charsetsVariadic eng h args c = charsetsList eng h args c ∧
    languagesVariadic eng h args c = languagesList eng h args c := by
  rcases hargs with rfl | ⟨a, rest, rfl, ha⟩
  · exact ⟨rfl, rfl, rfl, rfl⟩
  · have hbeq : (a == "") = false := beq_eq_false_iff_ne.mpr ha
    exact ⟨by simp [typesVariadic, hbeq], by simp [encodingsVariadic, hbeq],
      by simp [charsetsVariadic, hbeq], by simp [languagesVariadic, hbeq]⟩

/-- C4 witness: the equivalence applied at a concrete truthy-headed
argument list. -/
theorem variadic_array_equiv_amended_witness :
    typesVariadic engId lookupNone hdrTextC ["a", "b"] [] =
      typesList engId lookupNone hdrTextC ["a", "b"] [] :=
  (variadic_array_equiv_amended engId lookupNone hdrTextC [] ["a", "b"]
    (Or.inr ⟨"a", ["b"], rfl, by decide⟩)).1

end Accepts
